import Mathlib

/-!
Verification of the transaction executor (transaction_executor.py).

The Python account store is a dict from account name to integer balance,
guarded by a single lock.  A Python dict preserves insertion order:
updating an existing key keeps its position, a new key is appended at the
end.  We model the store as an association list of (name, balance) pairs
with exactly that discipline: reads and in-place writes act on the first
occurrence of a key, creation appends at the end.  All critical sections
of the Python code are single atomic operations here; an execution of a
block is an interleaving of those atomic operations, driven by a schedule.
-/

/-- Embeds class AccountValue (lines 8-11): a named balance snapshot. -/
structure AccountValue where
  name : String
  balance : Int
  deriving DecidableEq, Repr

/-- Embeds class AccountUpdate (lines 14-17): a proposed signed delta. -/
structure AccountUpdate where
  name : String
  balance_change : Int
  deriving DecidableEq, Repr

/-- The dict self.accounts, as an insertion-ordered association list. -/
abbrev Accounts := List (String × Int)

/-- Embeds self.accounts.get(name, 0) (lines 27 and 34): the balance of
the first entry named n, or 0 when absent. -/
def lookupBal : Accounts → String → Int
  | [], _ => 0
  | (m, b) :: rest, n => if m = n then b else lookupBal rest n

/-- Embeds the membership test update.name in self.accounts (line 39). -/
def containsName : Accounts → String → Bool
  | [], _ => false
  | (m, _) :: rest, n => if m = n then true else containsName rest n

/-- Embeds the dict write self.accounts[name] = v for a present key:
replaces the balance of the first entry named n, keeping its position. -/
def setBal : Accounts → String → Int → Accounts
  | [], _, _ => []
  | (m, b) :: rest, n, v =>
      if m = n then (m, v) :: rest else (m, b) :: setBal rest n v

/-- Embeds the validation pass of execute_updates (lines 33-36): walk the
batch in order and fail as soon as some pre-batch balance plus the
update's own delta is negative. -/
def validate (accounts : Accounts) : List AccountUpdate → Bool
  | [] => true
  | u :: rest =>
      if lookupBal accounts u.name + u.balance_change < 0 then false
      else validate accounts rest

/-- Embeds one iteration of the apply pass (lines 38-42): an existing
account gets its delta added in place; a missing account is appended
with balance max 0 delta. -/
def applyOne (accounts : Accounts) (u : AccountUpdate) : Accounts :=
  if containsName accounts u.name then
    setBal accounts u.name (lookupBal accounts u.name + u.balance_change)
  else
    accounts ++ [(u.name, max 0 u.balance_change)]

/-- Embeds AccountState.execute_updates (lines 30-42), tracking the value
the Python function returns to its caller.  The reject path executes a
bare return and the success path falls off the end of the function, so
the Python value returned is None on both paths; a return True or
return False statement would appear here as some true or some false. -/
def executeUpdatesRet (accounts : Accounts) (updates : List AccountUpdate) :
    Accounts × Option Bool :=
  if validate accounts updates then (updates.foldl applyOne accounts, none)
  else (accounts, none)

/-- The state effect of AccountState.execute_updates (lines 30-42): apply
the whole batch when validation passes, leave the store untouched when it
fails. -/
def execute_updates (accounts : Accounts) (updates : List AccountUpdate) :
    Accounts :=
  if validate accounts updates then updates.foldl applyOne accounts
  else accounts

/-- Embeds AccountState.get_account (lines 25-28): a snapshot read that
treats a missing account as balance 0 and never changes the store. -/
def get_account (accounts : Accounts) (name : String) : AccountValue :=
  ⟨name, lookupBal accounts name⟩

/-- Embeds class Transfer (lines 50-54). -/
structure Transfer where
  from_acc : String
  to_acc : String
  value : Int
  deriving DecidableEq, Repr

/-- Embeds Transfer.updates (lines 56-63): read the source balance; if it
is below the transfer value propose nothing and report infeasible,
otherwise propose the debit/credit pair and report feasible. -/
def Transfer.updates (t : Transfer) (accounts : Accounts) :
    List AccountUpdate × Bool :=
  if (get_account accounts t.from_acc).balance < t.value then ([], false)
  else ([⟨t.from_acc, -t.value⟩, ⟨t.to_acc, t.value⟩], true)

/-- Embeds process_transaction inside execute_block (lines 77-80): propose
against the current store, and apply the batch only on a feasible
proposal. -/
def process_transaction (accounts : Accounts) (t : Transfer) : Accounts :=
  let r := Transfer.updates t accounts
  if r.2 then execute_updates accounts r.1 else accounts

/-- One dict-comprehension insertion step for line 75: an existing name is
overwritten in place, a new name is appended. -/
def dictInsert (accounts : Accounts) (name : String) (balance : Int) :
    Accounts :=
  if containsName accounts name then setBal accounts name balance
  else accounts ++ [(name, balance)]

/-- Embeds the dict comprehension of line 75 building the initial store
from the caller's AccountValue list. -/
def toAccountMap (values : List AccountValue) : Accounts :=
  values.foldl (fun m v => dictInsert m v.name v.balance) []

/-- The progress of one transaction inside the thread pool of
execute_block: not yet proposed, proposed with a pending batch, or done
(dropped or applied). -/
inductive TxnPhase where
  | pending : TxnPhase
  | proposed : List AccountUpdate → TxnPhase
  | finished : TxnPhase
  deriving DecidableEq, Repr

/-- A snapshot of an in-flight execute_block run: the shared store plus
the phase of every transaction of the block. -/
structure ExecState where
  accounts : Accounts
  phases : List TxnPhase
  deriving DecidableEq, Repr

/-- One atomic critical section of execute_block (lines 77-84) performed
by transaction i: a pending transaction runs its propose (the locked read
of Transfer.updates) and either records its batch or drops out; a
transaction holding a proposed batch runs execute_updates.  The lock
serializes these sections, so an execution is a sequence of such steps. -/
def stepTxn (block : List Transfer) (st : ExecState) (i : Nat) : ExecState :=
  match st.phases[i]? with
  | some TxnPhase.pending =>
      match block[i]? with
      | some t =>
          let r := Transfer.updates t st.accounts
          if r.2 then ⟨st.accounts, st.phases.set i (TxnPhase.proposed r.1)⟩
          else ⟨st.accounts, st.phases.set i TxnPhase.finished⟩
      | none => st
  | some (TxnPhase.proposed us) =>
      ⟨execute_updates st.accounts us, st.phases.set i TxnPhase.finished⟩
  | _ => st

/-- The state of execute_block just after line 75: initial store built,
every transaction still pending. -/
def initExecState (block : List Transfer) (values : List AccountValue) :
    ExecState :=
  ⟨toAccountMap values, block.map fun _ => TxnPhase.pending⟩

/-- An execution of execute_block under a given interleaving: the schedule
lists, in order, which transaction runs its next critical section. -/
def runSchedule (block : List Transfer) (values : List AccountValue)
    (schedule : List Nat) : ExecState :=
  schedule.foldl (stepTxn block) (initExecState block values)

/-- The barrier of lines 83-84 has been passed: every transaction of the
block has finished. -/
def allFinished (st : ExecState) : Bool :=
  st.phases.all fun p => p = TxnPhase.finished

/-- Embeds the read-back of line 86: the final dict items, in store order,
as AccountValue records. -/
def blockResult (st : ExecState) : List AccountValue :=
  st.accounts.map fun p => ⟨p.1, p.2⟩

/-- The names of the store's entries, in store order. -/
def keysOf (accounts : Accounts) : List String :=
  accounts.map Prod.fst

/-- The sum of all stored balances. -/
def sumBal (accounts : Accounts) : Int :=
  (accounts.map Prod.snd).sum

/-- Every stored balance is non-negative. -/
def allNonneg (accounts : Accounts) : Prop :=
  ∀ p ∈ accounts, 0 ≤ p.2

instance (accounts : Accounts) : Decidable (allNonneg accounts) :=
  inferInstanceAs (Decidable (∀ p ∈ accounts, 0 ≤ p.2))

/-- Embeds account_values_example_1 (lines 90-94). -/
def account_values_example_1 : List AccountValue :=
  [⟨"A", 20⟩, ⟨"B", 30⟩, ⟨"C", 40⟩]

/-- Embeds block_example_1 (lines 95-99). -/
def block_example_1 : List Transfer :=
  [⟨"A", "B", 5⟩, ⟨"B", "C", 10⟩, ⟨"B", "C", 30⟩]

/-- Embeds expected_output_1 (lines 100-104). -/
def expected_output_1 : List AccountValue :=
  [⟨"A", 15⟩, ⟨"B", 25⟩, ⟨"C", 50⟩]

/-! ### Basic lemmas about the store operations -/

theorem lookupBal_eq_zero_of_not_contains (s : Accounts) (n : String)
    (h : containsName s n = false) : lookupBal s n = 0 := by
  induction s with
  | nil => rfl
  | cons hd tl ih =>
      obtain ⟨m, b⟩ := hd
      by_cases hmn : m = n
      · simp [containsName, hmn] at h
      · simp [containsName, hmn] at h
        simpa [lookupBal, hmn] using ih h

theorem containsName_iff_mem (s : Accounts) (n : String) :
    containsName s n = true ↔ n ∈ keysOf s := by
  induction s with
  | nil => simp [containsName, keysOf]
  | cons hd tl ih =>
      obtain ⟨m, b⟩ := hd
      simp only [keysOf, List.map_cons, List.mem_cons] at ih ⊢
      by_cases hmn : m = n
      · simp [containsName, hmn]
      · simp only [containsName, if_neg hmn]
        rw [ih]
        constructor
        · exact fun h => Or.inr h
        · rintro (h | h)
          · exact absurd h.symm hmn
          · exact h

theorem keysOf_setBal (s : Accounts) (n : String) (v : Int) :
    keysOf (setBal s n v) = keysOf s := by
  induction s with
  | nil => rfl
  | cons hd tl ih =>
      obtain ⟨m, b⟩ := hd
      by_cases hmn : m = n
      · simp [setBal, keysOf, hmn]
      · simp [setBal, keysOf, hmn] at ih ⊢
        exact ih

theorem containsName_setBal (s : Accounts) (n : String) (v : Int)
    (m : String) : containsName (setBal s n v) m = containsName s m := by
  induction s with
  | nil => rfl
  | cons hd tl ih =>
      obtain ⟨k, b⟩ := hd
      by_cases hkn : k = n
      · simp [setBal, containsName, hkn]
      · simp [setBal, containsName, hkn, ih]

theorem lookupBal_setBal_self (s : Accounts) (n : String) (v : Int)
    (h : containsName s n = true) : lookupBal (setBal s n v) n = v := by
  induction s with
  | nil => simp [containsName] at h
  | cons hd tl ih =>
      obtain ⟨m, b⟩ := hd
      by_cases hmn : m = n
      · simp [setBal, lookupBal, hmn]
      · simp [containsName, hmn] at h
        simp [setBal, lookupBal, hmn, ih h]

theorem lookupBal_setBal_ne (s : Accounts) (n : String) (v : Int)
    (m : String) (h : m ≠ n) :
    lookupBal (setBal s n v) m = lookupBal s m := by
  induction s with
  | nil => rfl
  | cons hd tl ih =>
      obtain ⟨k, b⟩ := hd
      by_cases hkn : k = n
      · have hnm : ¬ n = m := fun hc => h hc.symm
        simp [setBal, lookupBal, hkn, hnm]
      · simp only [setBal, if_neg hkn]
        by_cases hkm : k = m
        · simp [lookupBal, hkm]
        · simp [lookupBal, hkm, ih]

theorem lookupBal_append (s t : Accounts) (n : String) :
    lookupBal (s ++ t) n
      = if containsName s n then lookupBal s n else lookupBal t n := by
  induction s with
  | nil => simp [lookupBal, containsName]
  | cons hd tl ih =>
      obtain ⟨m, b⟩ := hd
      by_cases hmn : m = n
      · simp [lookupBal, containsName, hmn]
      · simp [lookupBal, containsName, hmn, ih]

theorem containsName_append (s t : Accounts) (n : String) :
    containsName (s ++ t) n = (containsName s n || containsName t n) := by
  induction s with
  | nil => simp [containsName]
  | cons hd tl ih =>
      obtain ⟨m, b⟩ := hd
      by_cases hmn : m = n
      · simp [containsName, hmn]
      · simp [containsName, hmn, ih]

/-! ### The validation pass -/

theorem validate_iff (s : Accounts) (us : List AccountUpdate) :
    validate s us = true
      ↔ ∀ u ∈ us, 0 ≤ lookupBal s u.name + u.balance_change := by
  induction us with
  | nil => simp [validate]
  | cons u rest ih =>
      by_cases h : lookupBal s u.name + u.balance_change < 0
      · simp only [validate, if_pos h]
        constructor
        · intro hfalse
          exact absurd hfalse (by simp)
        · intro hall
          exact absurd (hall u (by simp)) (by omega)
      · have h0 : 0 ≤ lookupBal s u.name + u.balance_change := by omega
        simp [validate, h, ih, h0]

/-! ### The apply pass -/

theorem lookupBal_applyOne_self (s : Accounts) (u : AccountUpdate) :
    lookupBal (applyOne s u) u.name
      = if containsName s u.name then lookupBal s u.name + u.balance_change
        else max 0 u.balance_change := by
  by_cases h : containsName s u.name
  · simp [applyOne, h, lookupBal_setBal_self s u.name _ h]
  · simp only [applyOne, h, if_neg, Bool.false_eq_true, if_false]
    rw [lookupBal_append]
    simp [h, lookupBal]

theorem lookupBal_applyOne_ne (s : Accounts) (u : AccountUpdate)
    (m : String) (h : m ≠ u.name) :
    lookupBal (applyOne s u) m = lookupBal s m := by
  by_cases hc : containsName s u.name
  · simp [applyOne, hc, lookupBal_setBal_ne s u.name _ m h]
  · simp only [applyOne, hc, Bool.false_eq_true, if_false]
    rw [lookupBal_append]
    by_cases hm : containsName s m
    · simp [hm]
    · have hm0 : lookupBal s m = 0 :=
        lookupBal_eq_zero_of_not_contains s m (by simpa using hm)
      have hum : ¬ u.name = m := fun hc => h hc.symm
      simp [hm, lookupBal, hum, hm0]

theorem containsName_applyOne_of_contains (s : Accounts) (u : AccountUpdate)
    (m : String) (h : containsName s m = true) :
    containsName (applyOne s u) m = true := by
  by_cases hc : containsName s u.name
  · simp [applyOne, hc, containsName_setBal, h]
  · simp [applyOne, hc, containsName_append, h]

theorem keysOf_applyOne (s : Accounts) (u : AccountUpdate) :
    keysOf (applyOne s u)
      = if containsName s u.name then keysOf s else keysOf s ++ [u.name] := by
  by_cases hc : containsName s u.name
  · simp [applyOne, hc, keysOf_setBal]
  · simp [applyOne, hc, keysOf]

theorem nodup_keysOf_applyOne (s : Accounts) (u : AccountUpdate)
    (h : (keysOf s).Nodup) : (keysOf (applyOne s u)).Nodup := by
  rw [keysOf_applyOne]
  by_cases hc : containsName s u.name
  · simpa [hc] using h
  · have hmem : u.name ∉ keysOf s := fun hm =>
      by simp [(containsName_iff_mem s u.name).mpr hm] at hc
    simp [hc, List.nodup_append, h, hmem]

/-! ### Balance sums -/

theorem sumBal_setBal (s : Accounts) (n : String) (v : Int)
    (h : containsName s n = true) :
    sumBal (setBal s n v) = sumBal s - lookupBal s n + v := by
  induction s with
  | nil => simp [containsName] at h
  | cons hd tl ih =>
      obtain ⟨m, b⟩ := hd
      by_cases hmn : m = n
      · simp [setBal, sumBal, lookupBal, hmn]
        ring
      · simp [containsName, hmn] at h
        simp [setBal, sumBal, lookupBal, hmn] at ih ⊢
        rw [ih h]
        ring

theorem sumBal_append_single (s : Accounts) (n : String) (b : Int) :
    sumBal (s ++ [(n, b)]) = sumBal s + b := by
  simp [sumBal]

theorem sumBal_applyOne (s : Accounts) (u : AccountUpdate) :
    sumBal (applyOne s u)
      = sumBal s + (if containsName s u.name then u.balance_change
                    else max 0 u.balance_change) := by
  by_cases hc : containsName s u.name
  · simp only [applyOne, hc, if_true]
    rw [sumBal_setBal s u.name _ hc]
    ring
  · simp only [applyOne, hc, Bool.false_eq_true, if_false]
    exact sumBal_append_single s u.name _

/-! ### Non-negativity preservation -/

theorem allNonneg_setBal (s : Accounts) (n : String) (v : Int)
    (hv : 0 ≤ v) (h : allNonneg s) : allNonneg (setBal s n v) := by
  induction s with
  | nil => exact h
  | cons hd tl ih =>
      obtain ⟨m, b⟩ := hd
      have hb : 0 ≤ b := h (m, b) (by simp)
      have htl : allNonneg tl := fun p hp => h p (by simp [hp])
      by_cases hmn : m = n
      · simp only [setBal, if_pos hmn]
        intro p hp
        rcases List.mem_cons.mp hp with hp1 | hp2
        · simp [hp1, hv]
        · exact htl p hp2
      · simp only [setBal, if_neg hmn]
        intro p hp
        rcases List.mem_cons.mp hp with hp1 | hp2
        · simp [hp1, hb]
        · exact ih htl p hp2

theorem allNonneg_applyOne (s : Accounts) (u : AccountUpdate)
    (hval : 0 ≤ lookupBal s u.name + u.balance_change)
    (h : allNonneg s) : allNonneg (applyOne s u) := by
  by_cases hc : containsName s u.name
  · simp only [applyOne, hc, if_true]
    exact allNonneg_setBal s u.name _ hval h
  · simp only [applyOne, hc, Bool.false_eq_true, if_false]
    intro p hp
    rcases List.mem_append.mp hp with hp1 | hp2
    · exact h p hp1
    · simp at hp2
      simp [hp2, le_max_left]

/-! ### Whole-batch lemmas -/

theorem allNonneg_foldl_applyOne (us : List AccountUpdate) (s : Accounts)
    (hnd : (us.map AccountUpdate.name).Nodup)
    (hval : validate s us = true)
    (h : allNonneg s) : allNonneg (us.foldl applyOne s) := by
  induction us generalizing s with
  | nil => simpa using h
  | cons u rest ih =>
      have hval1 := (validate_iff s (u :: rest)).mp hval
      have hu : 0 ≤ lookupBal s u.name + u.balance_change := hval1 u (by simp)
      rw [List.map_cons, List.nodup_cons] at hnd
      have hcons := hnd
      have hval2 : validate (applyOne s u) rest = true := by
        rw [validate_iff]
        intro v hv
        have hvne : v.name ≠ u.name := by
          intro hvn
          exact hcons.1 (hvn ▸ List.mem_map_of_mem AccountUpdate.name hv)
        rw [lookupBal_applyOne_ne s u v.name hvne]
        exact hval1 v (by simp [hv])
      simp only [List.foldl_cons]
      exact ih (applyOne s u) hcons.2 hval2
        (allNonneg_applyOne s u hu h)

theorem allNonneg_execute_updates (s : Accounts) (us : List AccountUpdate)
    (hnd : (us.map AccountUpdate.name).Nodup)
    (h : allNonneg s) : allNonneg (execute_updates s us) := by
  cases hval : validate s us with
  | false => simpa [execute_updates, hval] using h
  | true =>
      simpa [execute_updates, hval] using
        allNonneg_foldl_applyOne us s hnd hval h

theorem keysOf_foldl_applyOne (us : List AccountUpdate) (s : Accounts) :
    ∃ ext, keysOf (us.foldl applyOne s) = keysOf s ++ ext := by
  induction us generalizing s with
  | nil => exact ⟨[], by simp⟩
  | cons u rest ih =>
      obtain ⟨ext, hext⟩ := ih (applyOne s u)
      rw [keysOf_applyOne] at hext
      by_cases hc : containsName s u.name
      · exact ⟨ext, by simpa [hc] using hext⟩
      · refine ⟨u.name :: ext, ?_⟩
        simp only [List.foldl_cons]
        rw [hext]
        simp [hc]

theorem nodup_keysOf_foldl_applyOne (us : List AccountUpdate) (s : Accounts)
    (h : (keysOf s).Nodup) : (keysOf (us.foldl applyOne s)).Nodup := by
  induction us generalizing s with
  | nil => simpa using h
  | cons u rest ih =>
      simp only [List.foldl_cons]
      exact ih (applyOne s u) (nodup_keysOf_applyOne s u h)

theorem keysOf_execute_updates (s : Accounts) (us : List AccountUpdate) :
    ∃ ext, keysOf (execute_updates s us) = keysOf s ++ ext := by
  cases hval : validate s us with
  | false => exact ⟨[], by simp [execute_updates, hval]⟩
  | true =>
      obtain ⟨ext, hext⟩ := keysOf_foldl_applyOne us s
      exact ⟨ext, by simpa [execute_updates, hval] using hext⟩

theorem nodup_keysOf_execute_updates (s : Accounts) (us : List AccountUpdate)
    (h : (keysOf s).Nodup) : (keysOf (execute_updates s us)).Nodup := by
  cases hval : validate s us with
  | false => simpa [execute_updates, hval] using h
  | true =>
      simpa [execute_updates, hval] using nodup_keysOf_foldl_applyOne us s h

/-! ### Steps of a block execution -/

theorem stepTxn_accounts_cases (block : List Transfer) (st : ExecState)
    (i : Nat) :
    (stepTxn block st i).accounts = st.accounts
      ∨ ∃ us, (stepTxn block st i).accounts = execute_updates st.accounts us := by
  unfold stepTxn
  cases hp : st.phases[i]? with
  | none => exact Or.inl rfl
  | some ph =>
      cases ph with
      | pending =>
          cases hb : block[i]? with
          | none => exact Or.inl rfl
          | some t =>
              by_cases hr : (Transfer.updates t st.accounts).2 = true
              · left
                simp [hr]
              · left
                simp [hr]
      | proposed us => exact Or.inr ⟨us, rfl⟩
      | finished => exact Or.inl rfl

theorem keysOf_stepTxn (block : List Transfer) (st : ExecState) (i : Nat) :
    ∃ ext, keysOf (stepTxn block st i).accounts
      = keysOf st.accounts ++ ext := by
  rcases stepTxn_accounts_cases block st i with h | ⟨us, h⟩
  · exact ⟨[], by simp [h]⟩
  · obtain ⟨ext, hext⟩ := keysOf_execute_updates st.accounts us
    exact ⟨ext, by rw [h, hext]⟩

theorem nodup_keysOf_stepTxn (block : List Transfer) (st : ExecState)
    (i : Nat) (h : (keysOf st.accounts).Nodup) :
    (keysOf (stepTxn block st i).accounts).Nodup := by
  rcases stepTxn_accounts_cases block st i with heq | ⟨us, heq⟩
  · simpa [heq] using h
  · rw [heq]
    exact nodup_keysOf_execute_updates st.accounts us h

theorem keysOf_foldl_stepTxn (block : List Transfer) (sched : List Nat)
    (st : ExecState) :
    ∃ ext, keysOf (sched.foldl (stepTxn block) st).accounts
      = keysOf st.accounts ++ ext := by
  induction sched generalizing st with
  | nil => exact ⟨[], by simp⟩
  | cons i rest ih =>
      obtain ⟨ext1, h1⟩ := keysOf_stepTxn block st i
      obtain ⟨ext2, h2⟩ := ih (stepTxn block st i)
      refine ⟨ext1 ++ ext2, ?_⟩
      simp only [List.foldl_cons]
      rw [h2, h1, List.append_assoc]

theorem nodup_keysOf_foldl_stepTxn (block : List Transfer) (sched : List Nat)
    (st : ExecState) (h : (keysOf st.accounts).Nodup) :
    (keysOf (sched.foldl (stepTxn block) st).accounts).Nodup := by
  induction sched generalizing st with
  | nil => simpa using h
  | cons i rest ih =>
      simp only [List.foldl_cons]
      exact ih (stepTxn block st i) (nodup_keysOf_stepTxn block st i h)

theorem nodup_keysOf_dictInsert (s : Accounts) (n : String) (b : Int)
    (h : (keysOf s).Nodup) : (keysOf (dictInsert s n b)).Nodup := by
  by_cases hc : containsName s n
  · simpa [dictInsert, hc, keysOf_setBal] using h
  · have hmem : n ∉ keysOf s := fun hm =>
      by simp [(containsName_iff_mem s n).mpr hm] at hc
    simp [dictInsert, hc, keysOf, List.nodup_append]
    constructor
    · simpa [keysOf] using h
    · simpa [keysOf] using hmem

theorem nodup_keysOf_toAccountMap_aux (values : List AccountValue)
    (m : Accounts) (h : (keysOf m).Nodup) :
    (keysOf (values.foldl (fun s v => dictInsert s v.name v.balance) m)).Nodup := by
  induction values generalizing m with
  | nil => simpa using h
  | cons v rest ih =>
      simp only [List.foldl_cons]
      exact ih (dictInsert m v.name v.balance)
        (nodup_keysOf_dictInsert m v.name v.balance h)

theorem nodup_keysOf_toAccountMap (values : List AccountValue) :
    (keysOf (toAccountMap values)).Nodup :=
  nodup_keysOf_toAccountMap_aux values [] (by simp [keysOf])

/-! ### Claim theorems -/

/-- Claim C1, counterexample: the store with the single account X holding
10 has every balance non-negative, yet the batch debiting X by 10 twice
passes validation (each update is checked against the pre-batch balance
alone) and execute_updates leaves X at -10. -/
theorem C1_counterexample :
    allNonneg [("X", (10 : Int))]
    ∧ execute_updates [("X", 10)] [⟨"X", -10⟩, ⟨"X", -10⟩] = [("X", -10)]
    ∧ ¬ allNonneg (execute_updates [("X", 10)] [⟨"X", -10⟩, ⟨"X", -10⟩]) := by
  decide

/-- Claim C1 (amended): starting from a store whose balances are all
non-negative, any sequence of execute_updates calls whose batches never
name the same account twice keeps every stored balance non-negative
(get_account reads never change the store, so they are irrelevant to
reachability). -/
theorem C1_nonneg_invariant (init : Accounts)
    (batches : List (List AccountUpdate))
    (h0 : allNonneg init)
    (hnd : ∀ b ∈ batches, (b.map AccountUpdate.name).Nodup) :
    allNonneg (batches.foldl execute_updates init) := by
  revert h0 hnd
  induction batches generalizing init with
  | nil =>
      intro h0 _
      simpa using h0
  | cons b rest ih =>
      intro h0 hnd
      simp only [List.foldl_cons]
      exact ih (execute_updates init b)
        (allNonneg_execute_updates init b (hnd b (by simp)) h0)
        (fun c hc => hnd c (by simp [hc]))

/-- Claim C1, witness for the amended invariant at a concrete store and
batch sequence. -/
theorem C1_witness :
    allNonneg (List.foldl execute_updates [("A", (5 : Int))]
      [[⟨"A", -3⟩, ⟨"B", 3⟩]]) :=
  C1_nonneg_invariant [("A", 5)] [[⟨"A", -3⟩, ⟨"B", 3⟩]]
    (by decide) (by decide)

/-- Claim C2, counterexample: an applied batch (the store changes) returns
None rather than true, and a rejected batch (the store is untouched)
returns None rather than false — execute_updates returns no boolean at
all. -/
theorem C2_counterexample :
    (executeUpdatesRet [("A", (1 : Int))] [⟨"A", 1⟩]).1 = [("A", 2)]
    ∧ (executeUpdatesRet [("A", 1)] [⟨"A", 1⟩]).2 ≠ some true
    ∧ (executeUpdatesRet [("A", 1)] [⟨"A", -2⟩]).1 = [("A", 1)]
    ∧ (executeUpdatesRet [("A", 1)] [⟨"A", -2⟩]).2 ≠ some false := by
  decide

/-- Claim C2 (amended): execute_updates returns None to its caller on
every input batch, applied or rejected alike; the outcome is observable
only through the store, whose new value is exactly execute_updates. -/
theorem C2_returns_none (s : Accounts) (us : List AccountUpdate) :
    (executeUpdatesRet s us).2 = none
    ∧ (executeUpdatesRet s us).1 = execute_updates s us := by
  unfold executeUpdatesRet execute_updates
  by_cases h : validate s us = true <;> simp [h]

/-- Claim C3: if any update of the batch fails the pre-batch balance
check, execute_updates leaves the whole store unchanged — no update of
the batch is applied. -/
theorem C3_batch_atomicity (s : Accounts) (us : List AccountUpdate)
    (u : AccountUpdate) (hmem : u ∈ us)
    (hneg : lookupBal s u.name + u.balance_change < 0) :
    execute_updates s us = s := by
  have hval : validate s us = false := by
    cases hv : validate s us with
    | false => rfl
    | true =>
        have := (validate_iff s us).mp hv u hmem
        omega
  simp [execute_updates, hval]

/-- Claim C3, witness: a batch whose second update overdraws account A is
rejected as a whole, leaving even the feasible first update unapplied. -/
theorem C3_witness :
    execute_updates [("A", (5 : Int))] [⟨"B", 3⟩, ⟨"A", -6⟩] = [("A", 5)] :=
  C3_batch_atomicity [("A", 5)] [⟨"B", 3⟩, ⟨"A", -6⟩] ⟨"A", -6⟩
    (by decide) (by decide)

/-- Claim C4: a Transfer whose propose step (against any snapshot) is
feasible and whose batch passes the apply-time validation conserves the
sum of all stored balances; the clamp-to-zero creation case never changes
the sum for a validated Transfer batch, so the equality holds without
exception. -/
theorem C4_conservation (t : Transfer) (s0 s : Accounts)
    (hfeas : (Transfer.updates t s0).2 = true)
    (happly : validate s (Transfer.updates t s0).1 = true) :
    sumBal (execute_updates s (Transfer.updates t s0).1) = sumBal s := by
  have hups : (Transfer.updates t s0).1
      = [⟨t.from_acc, -t.value⟩, ⟨t.to_acc, t.value⟩] := by
    unfold Transfer.updates at hfeas ⊢
    by_cases h : (get_account s0 t.from_acc).balance < t.value
    · simp [h] at hfeas
    · simp [h]
  rw [hups] at happly ⊢
  have hv := (validate_iff s _).mp happly
  have hv1 : 0 ≤ lookupBal s t.from_acc + (-t.value) := by
    simpa using hv ⟨t.from_acc, -t.value⟩ (by simp)
  have hv2 : 0 ≤ lookupBal s t.to_acc + t.value := by
    simpa using hv ⟨t.to_acc, t.value⟩ (by simp)
  simp only [execute_updates, happly, if_true, List.foldl_cons,
    List.foldl_nil]
  rw [sumBal_applyOne, sumBal_applyOne]
  have hA : (if containsName s (⟨t.from_acc, -t.value⟩ : AccountUpdate).name
        then (⟨t.from_acc, -t.value⟩ : AccountUpdate).balance_change
        else max 0 (⟨t.from_acc, -t.value⟩ : AccountUpdate).balance_change)
      = -t.value := by
    by_cases hc1 : containsName s t.from_acc = true
    · simp [hc1]
    · have h0 : lookupBal s t.from_acc = 0 :=
        lookupBal_eq_zero_of_not_contains s _ (by simpa using hc1)
      rw [h0] at hv1
      have hnn : (0 : Int) ≤ -t.value := by omega
      simp only [hc1, Bool.false_eq_true, if_false]
      exact max_eq_right hnn
  have hB : (if containsName (applyOne s ⟨t.from_acc, -t.value⟩)
          (⟨t.to_acc, t.value⟩ : AccountUpdate).name
        then (⟨t.to_acc, t.value⟩ : AccountUpdate).balance_change
        else max 0 (⟨t.to_acc, t.value⟩ : AccountUpdate).balance_change)
      = t.value := by
    by_cases hc2 : containsName (applyOne s ⟨t.from_acc, -t.value⟩)
        t.to_acc = true
    · simp [hc2]
    · have hcs : containsName s t.to_acc = false := by
        cases hcs0 : containsName s t.to_acc with
        | false => rfl
        | true =>
            exact absurd (containsName_applyOne_of_contains s _ _ hcs0) hc2
      have h0 : lookupBal s t.to_acc = 0 :=
        lookupBal_eq_zero_of_not_contains s _ hcs
      rw [h0] at hv2
      have hnn : (0 : Int) ≤ t.value := by omega
      simp only [hc2, Bool.false_eq_true, if_false]
      exact max_eq_right hnn
  rw [hA, hB]
  ring

/-- Claim C4, witness: a feasible, validated 5-unit transfer from A to B
leaves the total of all balances unchanged. -/
theorem C4_witness :
    sumBal (execute_updates [("A", (20 : Int)), ("B", 30)]
        (Transfer.updates ⟨"A", "B", 5⟩ [("A", 20), ("B", 30)]).1)
      = sumBal [("A", (20 : Int)), ("B", 30)] :=
  C4_conservation ⟨"A", "B", 5⟩ [("A", 20), ("B", 30)] [("A", 20), ("B", 30)]
    (by decide) (by decide)

/-- Claim C5, counterexample: the interleaving in which the third transfer
proposes and applies first, then the second proposes (now infeasible),
then the first runs, is a complete execution of Scenario A's block and
ends with balances A=15, B=5, C=70, not the expected A=15, B=25, C=50. -/
theorem C5_counterexample :
    allFinished (runSchedule block_example_1 account_values_example_1
      [2, 2, 1, 0, 0]) = true
    ∧ blockResult (runSchedule block_example_1 account_values_example_1
        [2, 2, 1, 0, 0]) = [⟨"A", 15⟩, ⟨"B", 5⟩, ⟨"C", 70⟩]
    ∧ blockResult (runSchedule block_example_1 account_values_example_1
        [2, 2, 1, 0, 0]) ≠ expected_output_1 := by
  decide

/-- Claim C5 (amended): executing Scenario A's block sequentially in block
order (each transaction's propose immediately followed by its apply)
completes and yields A=15, B=25, C=50 in that account order, with the
third transfer failing — it is proposed infeasible because B then holds
25 < 30; other interleavings of the same block can end differently. -/
theorem C5_sequential_execution :
    allFinished (runSchedule block_example_1 account_values_example_1
      [0, 0, 1, 1, 2]) = true
    ∧ blockResult (runSchedule block_example_1 account_values_example_1
        [0, 0, 1, 1, 2]) = expected_output_1
    ∧ (Transfer.updates ⟨"B", "C", 30⟩
        (runSchedule block_example_1 account_values_example_1
          [0, 0, 1, 1]).accounts).2 = false := by
  decide

/-- Claim C6: Transfer.updates returns the empty batch and false exactly
when the balance read for the source account is strictly below the
transfer value, and otherwise returns the debit/credit pair with true. -/
theorem C6_propose_result (t : Transfer) (s : Accounts) :
    (lookupBal s t.from_acc < t.value → Transfer.updates t s = ([], false))
    ∧ (t.value ≤ lookupBal s t.from_acc →
        Transfer.updates t s
          = ([⟨t.from_acc, -t.value⟩, ⟨t.to_acc, t.value⟩], true)) := by
  constructor
  · intro h
    simp [Transfer.updates, get_account, h]
  · intro h
    simp [Transfer.updates, get_account, not_lt.mpr h]

/-- Claim C6, witness: both branches at concrete stores — a transfer of 7
against a balance of 3 proposes nothing, a transfer of 2 proposes the
debit/credit pair. -/
theorem C6_witness :
    Transfer.updates ⟨"A", "B", 7⟩ [("A", (3 : Int))] = ([], false)
    ∧ Transfer.updates ⟨"A", "B", 2⟩ [("A", (3 : Int))]
        = ([⟨"A", -2⟩, ⟨"B", 2⟩], true) :=
  ⟨(C6_propose_result ⟨"A", "B", 7⟩ [("A", 3)]).1 (by decide),
   (C6_propose_result ⟨"A", "B", 2⟩ [("A", 3)]).2 (by decide)⟩

/-- Claim C7: a batch that passes validation is applied update by update
(the fold of applyOne), and each single update adds its delta to an
existing account's balance, while a missing account is created by
appending it with balance max 0 delta — in particular a negative delta on
a missing account creates it with balance 0 rather than erroring. -/
theorem C7_account_creation (s : Accounts) (us : List AccountUpdate)
    (u : AccountUpdate) (hval : validate s us = true) :
    execute_updates s us = us.foldl applyOne s
    ∧ (containsName s u.name = true →
        lookupBal (applyOne s u) u.name
          = lookupBal s u.name + u.balance_change)
    ∧ (containsName s u.name = false →
        applyOne s u = s ++ [(u.name, max 0 u.balance_change)]
        ∧ lookupBal (applyOne s u) u.name = max 0 u.balance_change)
    ∧ (containsName s u.name = false → u.balance_change < 0 →
        lookupBal (applyOne s u) u.name = 0) := by
  refine ⟨by simp [execute_updates, hval], ?_, ?_, ?_⟩
  · intro hc
    rw [lookupBal_applyOne_self]
    simp [hc]
  · intro hc
    refine ⟨by simp [applyOne, hc], ?_⟩
    rw [lookupBal_applyOne_self]
    simp [hc]
  · intro hc hneg
    rw [lookupBal_applyOne_self]
    simp only [hc, Bool.false_eq_true, if_false]
    exact max_eq_left (le_of_lt hneg)

/-- Claim C7, witness: a validated batch is applied as the fold of
applyOne, and crediting the missing account N with a negative delta
creates it with balance 0. -/
theorem C7_witness :
    execute_updates [("A", (5 : Int))] [⟨"A", -2⟩, ⟨"N", 4⟩]
        = List.foldl applyOne [("A", 5)] [⟨"A", -2⟩, ⟨"N", 4⟩]
    ∧ lookupBal (applyOne [("A", (5 : Int))] ⟨"N", -4⟩) "N" = 0 :=
  ⟨(C7_account_creation [("A", 5)] [⟨"A", -2⟩, ⟨"N", 4⟩] ⟨"N", 4⟩
      (by decide)).1,
   (C7_account_creation [("A", 5)] [⟨"A", -2⟩, ⟨"N", 4⟩] ⟨"N", -4⟩
      (by decide)).2.2.2 (by decide) (by decide)⟩

/-- Claim C8: a Transfer whose source account is absent and whose value is
strictly positive reads the source balance as 0, proposes the empty batch
with the infeasible flag, and processing the transaction leaves the store
completely unchanged. -/
theorem C8_unknown_source (t : Transfer) (s : Accounts)
    (habs : containsName s t.from_acc = false) (hpos : 0 < t.value) :
    (get_account s t.from_acc).balance = 0
    ∧ Transfer.updates t s = ([], false)
    ∧ process_transaction s t = s := by
  have h0 : lookupBal s t.from_acc = 0 :=
    lookupBal_eq_zero_of_not_contains s _ habs
  have hlt : (get_account s t.from_acc).balance < t.value := by
    simp [get_account, h0, hpos]
  have hupd : Transfer.updates t s = ([], false) := by
    simp [Transfer.updates, hlt]
  refine ⟨by simp [get_account, h0], hupd, ?_⟩
  simp [process_transaction, hupd]

/-- Claim C8, witness: a 5-unit transfer from the unknown account Z reads
balance 0, is proposed infeasible and leaves the store unchanged. -/
theorem C8_witness :
    (get_account [("A", (10 : Int))] "Z").balance = 0
    ∧ Transfer.updates ⟨"Z", "A", 5⟩ [("A", 10)] = ([], false)
    ∧ process_transaction [("A", 10)] ⟨"Z", "A", 5⟩ = [("A", 10)] :=
  C8_unknown_source ⟨"Z", "A", 5⟩ [("A", 10)] (by decide) (by decide)

/-- Claim C9: under every schedule, the store's name sequence starts as
the names present at construction in their original order, and every
later step only appends names that were not present before, each at the
moment it is first created, with no name ever duplicated; the read-back
of execute_block lists names exactly in that store order. -/
theorem C9_result_ordering (block : List Transfer)
    (values : List AccountValue) (s1 s2 : List Nat) :
    keysOf (runSchedule block values []).accounts
      = keysOf (toAccountMap values)
    ∧ (∃ ext, keysOf (runSchedule block values (s1 ++ s2)).accounts
        = keysOf (runSchedule block values s1).accounts ++ ext
        ∧ ∀ n ∈ ext, n ∉ keysOf (runSchedule block values s1).accounts)
    ∧ (keysOf (runSchedule block values s1).accounts).Nodup
    ∧ (blockResult (runSchedule block values s1)).map AccountValue.name
        = keysOf (runSchedule block values s1).accounts := by
  have hinit : (initExecState block values).accounts = toAccountMap values :=
    rfl
  have hnd1 : (keysOf (runSchedule block values s1).accounts).Nodup := by
    unfold runSchedule
    exact nodup_keysOf_foldl_stepTxn block s1 (initExecState block values)
      (by rw [hinit]; exact nodup_keysOf_toAccountMap values)
  refine ⟨rfl, ?_, hnd1, ?_⟩
  · have hsplit : runSchedule block values (s1 ++ s2)
        = s2.foldl (stepTxn block) (runSchedule block values s1) := by
      unfold runSchedule
      rw [List.foldl_append]
    obtain ⟨ext, hext⟩ :=
      keysOf_foldl_stepTxn block s2 (runSchedule block values s1)
    have hnd2 : (keysOf (runSchedule block values s1).accounts ++ ext).Nodup := by
      rw [← hext, ← hsplit]
      unfold runSchedule
      exact nodup_keysOf_foldl_stepTxn block (s1 ++ s2)
        (initExecState block values)
        (by rw [hinit]; exact nodup_keysOf_toAccountMap values)
    have hdisj := (List.nodup_append.mp hnd2).2.2
    refine ⟨ext, by rw [hsplit, hext], ?_⟩
    intro n hn hmem
    exact hdisj hmem hn
  · simp [blockResult, keysOf, List.map_map, Function.comp]

/-- Claim C9, witness: the key order of a concrete partial execution of
Scenario A's block is duplicate-free. -/
theorem C9_witness :
    (keysOf (runSchedule block_example_1 account_values_example_1
      [0, 0]).accounts).Nodup :=
  (C9_result_ordering block_example_1 account_values_example_1
    [0, 0] [1]).2.2.1

/-- Claim C10: validation accepts a batch exactly when every update passes
against the pre-batch balance plus only its own delta, never the
cumulative effect of earlier updates; consequently the all-non-negative
store holding Y:7 accepts the batch debiting Y by 7 and then by 5, and
applying it leaves Y at the negative balance -5. -/
theorem C10_per_update_validation :
    (∀ (s : Accounts) (us : List AccountUpdate),
      validate s us = true
        ↔ ∀ u ∈ us, 0 ≤ lookupBal s u.name + u.balance_change)
    ∧ allNonneg [("Y", (7 : Int))]
    ∧ ([⟨"Y", -7⟩, ⟨"Y", -5⟩] : List AccountUpdate).map AccountUpdate.name
        = ["Y", "Y"]
    ∧ validate [("Y", 7)] [⟨"Y", -7⟩, ⟨"Y", -5⟩] = true
    ∧ execute_updates [("Y", 7)] [⟨"Y", -7⟩, ⟨"Y", -5⟩] = [("Y", -5)]
    ∧ lookupBal (execute_updates [("Y", 7)] [⟨"Y", -7⟩, ⟨"Y", -5⟩]) "Y" < 0 :=
  ⟨validate_iff, by decide⟩

/-- Claim C10, witness: the validation characterization applied at a
concrete store and single-update batch. -/
theorem C10_witness :
    validate [("Y", (7 : Int))] [⟨"Y", -7⟩] = true :=
  (C10_per_update_validation.1 [("Y", 7)] [⟨"Y", -7⟩]).mpr (by decide)
